import Mathlib

/-!
Verification of the uni2 match-scanning core (`uni2-parser.py`).

The scan loop of the source is embedded shallowly:

* a perceptual hash fingerprint (`imagehash.ImageHash`) is a list of bits,
  and the library's `h1 - h2` is the count of differing bits (`hashDiff`);
* an image is modelled by the one operation the scan ever applies to it,
  `imagehash.dhash(img.crop(box))`, recorded as `Img.dhashCrop`;
* the module-level reference hashes (loaded from asset files at startup)
  are a `Catalog` value;
* timestamps (floats in the source) are rationals;
* the `for sec, clip_frame in clip.iter_frames(...)` loop with its
  `if sec < next_sec: continue` guard is a fold of `scanStep` over the
  ordered frame list.
-/

namespace Uni2

/-- Constant `SEEK_SECS = 0.25` from the source header. -/
def SEEK_SECS : ℚ := 1/4

/-- Constant `SKIP_SECS = 10.0` from the source header. -/
def SKIP_SECS : ℚ := 10

/-- Constant `ROUND_START_MAX_OFFSET_SECS = 20.0` from the source header. -/
def ROUND_START_MAX_OFFSET_SECS : ℚ := 20

/-- A perceptual-hash fingerprint: a fixed-length bit vector
(`imagehash.ImageHash`). -/
abbrev ImageHash := List Bool

/-- Distance `h₁ - h₂` on `imagehash.ImageHash` values: the Hamming distance,
i.e. the number of differing bits. -/
def hashDiff (h₁ h₂ : ImageHash) : ℕ :=
  ((h₁.zip h₂).filter (fun p => p.1 != p.2)).length

/-- A crop rectangle `[left, upper, right, lower]`. -/
abbrev Box := ℕ × ℕ × ℕ × ℕ

/-- Crop box `VS_IMAGE_BOX = [97, 26, 97+20, 26+93]`. -/
def VS_IMAGE_BOX : Box := (97, 26, 97+20, 26+93)

/-- Threshold `VS_IMAGE_HASH_THRESHOLD = 10`. -/
def VS_IMAGE_HASH_THRESHOLD : ℕ := 10

/-- Crop box `CLAUSE_IMAGE_BOX = [80, 16, 80+54, 16+113]`. -/
def CLAUSE_IMAGE_BOX : Box := (80, 16, 80+54, 16+113)

/-- Threshold `CLAUSE_IMAGE_HASH_THRESHOLD = 20`. -/
def CLAUSE_IMAGE_HASH_THRESHOLD : ℕ := 20

/-- Crop box `CHAR_LEFT_IMAGE_BOX = [19, 16, 19+61, 16+84]`. -/
def CHAR_LEFT_IMAGE_BOX : Box := (19, 16, 19+61, 16+84)

/-- Crop box `CHAR_RIGHT_IMAGE_BOX = [134, 16, 134+61, 16+84]`. -/
def CHAR_RIGHT_IMAGE_BOX : Box := (134, 16, 134+61, 16+84)

/-- Threshold `CHAR_IMAGE_HASH_THRESHOLD = 10`.  Defined in the source but never
read by the scan loop: character classification applies no threshold. -/
def CHAR_IMAGE_HASH_THRESHOLD : ℕ := 10

/-- A decoded frame image.  The scan only ever applies
`imagehash.dhash(img.crop(box))` to an image, so the model records that
composite directly: `dhashCrop box` is the dhash fingerprint of the crop
of the image at `box`. -/
structure Img where
  dhashCrop : Box → ImageHash

instance : Inhabited Img := ⟨⟨fun _ => []⟩⟩

/-- One decoded frame as yielded by `clip.iter_frames(with_times=True)`:
a timestamp in seconds and the frame image. -/
structure Frame where
  sec : ℚ
  img : Img

/-- The module-level reference hashes, computed once at startup from the
asset images (`vs.png`, `clause.png`, and the character icon files).
`CHAR_LEFT_HASHES` / `CHAR_RIGHT_HASHES` are Python dicts keyed by
character key; a dict with unique keys in some insertion order is an
association list. -/
structure Catalog where
  VS_IMAGE_HASH : ImageHash
  CLAUSE_IMAGE_HASH : ImageHash
  CHAR_LEFT_HASHES : List (String × ImageHash)
  CHAR_RIGHT_HASHES : List (String × ImageHash)

/-- The `PotentialMatch` dataclass.  `round_start_sec` and
`clause_hash_diff` default to `None`. -/
structure PotentialMatch where
  vs_sec : ℚ
  vs_clip_frame_img : Img
  left_char_key : String
  right_char_key : String
  left_hash_diff : ℕ
  right_hash_diff : ℕ
  round_start_sec : Option ℚ := none
  clause_hash_diff : Option ℕ := none

instance : Inhabited PotentialMatch :=
  ⟨⟨0, default, "", "", 0, 0, none, none⟩⟩

/-- The scan loop's local state: `next_sec`, `last_vs_sec`,
`vs_clip_frame_imgs`, `potential_matches`. -/
structure ScanState where
  next_sec : ℚ
  last_vs_sec : ℚ
  vs_clip_frame_imgs : List Img
  potential_matches : List PotentialMatch

/-- The state just before the loop:
`next_sec = 0`, `last_vs_sec = 0`, empty buffer, no matches. -/
def initState : ScanState := ⟨0, 0, [], []⟩

/-- Emptiness `l = []` is decidable without decidable equality on the elements
(Python's truthiness test on a list). -/
instance (priority := low) {α : Type} (l : List α) : Decidable (l = []) :=
  match l with
  | [] => isTrue rfl
  | _ :: _ => isFalse (fun h => List.noConfusion h)

/-- Mutating the last element of a list in place
(`potential_matches[-1].field = value`); the empty list is unchanged. -/
def setLast {α : Type} (f : α → α) : List α → List α
  | [] => []
  | [a] => [f a]
  | a :: b :: l => a :: setLast f (b :: l)

/-- Python's default ordering on `(int, str)` tuples, used by
`sorted(...)`: first component numerically, ties by string
(code-point lexicographic) comparison. -/
def tupleLE (a b : ℕ × String) : Prop :=
  a.1 < b.1 ∨ (a.1 = b.1 ∧ a.2 ≤ b.2)

instance : DecidableRel tupleLE := fun a b => by
  unfold tupleLE; infer_instance

theorem tupleLE_refl (a : ℕ × String) : tupleLE a a :=
  Or.inr ⟨rfl, le_refl _⟩

instance : IsTotal (ℕ × String) tupleLE := by
  constructor
  intro a b
  rcases Nat.lt_trichotomy a.1 b.1 with h | h | h
  · exact Or.inl (Or.inl h)
  · rcases le_total a.2 b.2 with h2 | h2
    · exact Or.inl (Or.inr ⟨h, h2⟩)
    · exact Or.inr (Or.inr ⟨h.symm, h2⟩)
  · exact Or.inr (Or.inl h)

instance : IsTrans (ℕ × String) tupleLE := by
  constructor
  intro a b c hab hbc
  rcases hab with h1 | ⟨e1, s1⟩
  · rcases hbc with h2 | ⟨e2, _⟩
    · exact Or.inl (h1.trans h2)
    · exact Or.inl (e2 ▸ h1)
  · rcases hbc with h2 | ⟨e2, s2⟩
    · exact Or.inl (e1 ▸ h2)
    · exact Or.inr ⟨e1.trans e2, s1.trans s2⟩

instance : IsAntisymm (ℕ × String) tupleLE := by
  constructor
  intro a b hab hba
  rcases hab with h1 | ⟨e1, s1⟩
  · rcases hba with h2 | ⟨e2, _⟩
    · exact absurd (h1.trans h2) (lt_irrefl _)
    · exact absurd (e2 ▸ h1) (lt_irrefl _)
  · rcases hba with h2 | ⟨_, s2⟩
    · exact absurd (e1 ▸ h2) (lt_irrefl _)
    · exact Prod.ext e1 (le_antisymm s1 s2)

/-- The list comprehension plus `sorted(...)` of the classification code:
`sorted([(imagehash.dhash(img.crop(box)) - char_hash, char_key)
         for char_key, char_hash in char_hashes.items()])`.
Python's `sorted` is a stable sort under the default tuple ordering. -/
def charHashDiffs (img : Img) (box : Box)
    (char_hashes : List (String × ImageHash)) : List (ℕ × String) :=
  List.insertionSort tupleLE
    (char_hashes.map (fun kh => (hashDiff (img.dhashCrop box) kh.2, kh.1)))

/-- Distance `imagehash.dhash(clip_frame_img.crop(VS_IMAGE_BOX)) - VS_IMAGE_HASH`. -/
def vsImgHashDiff (cat : Catalog) (f : Frame) : ℕ :=
  hashDiff (f.img.dhashCrop VS_IMAGE_BOX) cat.VS_IMAGE_HASH

/-- Distance `imagehash.dhash(clip_frame_img.crop(CLAUSE_IMAGE_BOX)) - CLAUSE_IMAGE_HASH`. -/
def clauseImgHashDiff (cat : Catalog) (f : Frame) : ℕ :=
  hashDiff (f.img.dhashCrop CLAUSE_IMAGE_BOX) cat.CLAUSE_IMAGE_HASH

/-- Guard of the first branch (`# Detect 1st clause image`):
`sec - last_vs_sec < ROUND_START_MAX_OFFSET_SECS and potential_matches`. -/
def roundStartCond (s : ScanState) (f : Frame) : Prop :=
  f.sec - s.last_vs_sec < ROUND_START_MAX_OFFSET_SECS ∧ s.potential_matches ≠ []

instance (s : ScanState) (f : Frame) : Decidable (roundStartCond s f) := by
  unfold roundStartCond; infer_instance

/-- Guard of the second branch (`# Detect VS image`):
`vs_img_hash_diff < VS_IMAGE_HASH_THRESHOLD`. -/
def vsBurstCond (cat : Catalog) (f : Frame) : Prop :=
  vsImgHashDiff cat f < VS_IMAGE_HASH_THRESHOLD

instance (cat : Catalog) (f : Frame) : Decidable (vsBurstCond cat f) := by
  unfold vsBurstCond; infer_instance

/-- Body of the first branch (`# Detect 1st clause image`): on a clause
hit, fill `round_start_sec` / `clause_hash_diff` on `potential_matches[-1]`
and take the coarse jump; otherwise retry with the fine step. -/
def roundStartBranch (cat : Catalog) (s : ScanState) (f : Frame) : ScanState :=
  let clause_img_hash_diff := clauseImgHashDiff cat f
  if clause_img_hash_diff < CLAUSE_IMAGE_HASH_THRESHOLD then
    { s with
      potential_matches :=
        setLast (fun m =>
          { m with
            round_start_sec := some f.sec
            clause_hash_diff := some clause_img_hash_diff }) s.potential_matches
      next_sec := max (s.last_vs_sec + ROUND_START_MAX_OFFSET_SECS) (f.sec + SKIP_SECS) }
  else
    { s with next_sec := f.sec + SEEK_SECS }

/-- Body of the second branch (`# Detect VS image`): buffer the frame
image and advance by the fine step. -/
def vsBurstBranch (s : ScanState) (f : Frame) : ScanState :=
  { s with
    vs_clip_frame_imgs := s.vs_clip_frame_imgs ++ [f.img]
    next_sec := f.sec + SEEK_SECS }

/-- Body of the third branch (`# Potential match`): pick the temporally
middle buffered frame `vs_clip_frame_imgs[len(vs_clip_frame_imgs) // 2]`,
classify both character crops by sorted hash distance, append the new
`PotentialMatch`, record `last_vs_sec`, clear the buffer. -/
def potentialMatchBranch (cat : Catalog) (s : ScanState) (f : Frame) : ScanState :=
  let vs_clip_frame_img := s.vs_clip_frame_imgs.getD (s.vs_clip_frame_imgs.length / 2) default
  let left_hash_diffs := charHashDiffs vs_clip_frame_img CHAR_LEFT_IMAGE_BOX cat.CHAR_LEFT_HASHES
  let right_hash_diffs := charHashDiffs vs_clip_frame_img CHAR_RIGHT_IMAGE_BOX cat.CHAR_RIGHT_HASHES
  { s with
    potential_matches := s.potential_matches ++
      [{ vs_sec := f.sec
         vs_clip_frame_img := vs_clip_frame_img
         left_char_key := (left_hash_diffs.headD default).2
         right_char_key := (right_hash_diffs.headD default).2
         left_hash_diff := (left_hash_diffs.headD default).1
         right_hash_diff := (right_hash_diffs.headD default).1 }]
    last_vs_sec := f.sec
    vs_clip_frame_imgs := []
    next_sec := f.sec + SEEK_SECS }

/-- Body of the final `else`: just advance by the fine step. -/
def idleBranch (s : ScanState) (f : Frame) : ScanState :=
  { s with next_sec := f.sec + SEEK_SECS }

/-- The per-examined-frame decision: the `if`/`elif`/`elif`/`else` chain
of the scan loop, in source order. -/
def examineFrame (cat : Catalog) (s : ScanState) (f : Frame) : ScanState :=
  if roundStartCond s f then
    roundStartBranch cat s f
  else if vsBurstCond cat f then
    vsBurstBranch s f
  else if s.vs_clip_frame_imgs ≠ [] then
    potentialMatchBranch cat s f
  else
    idleBranch s f

/-- One iteration of `for sec, clip_frame in clip.iter_frames(...)`:
frames with `sec < next_sec` are skipped (`continue`), the rest are
examined. -/
def scanStep (cat : Catalog) (s : ScanState) (f : Frame) : ScanState :=
  if f.sec < s.next_sec then s else examineFrame cat s f

/-- Running the loop over a frame list from a given state. -/
def scanFrames (cat : Catalog) (s : ScanState) (frames : List Frame) : ScanState :=
  frames.foldl (scanStep cat) s

/-- The whole scan (`# Find match start timestamps` section): fold over
the decoded frame sequence from the initial state. -/
def scan (cat : Catalog) (frames : List Frame) : ScanState :=
  scanFrames cat initState frames

/-! ### Basic facts about `setLast` -/

theorem setLast_nil {α : Type} (f : α → α) : setLast f [] = [] := rfl

theorem setLast_eq_append {α : Type} (f : α → α) :
    ∀ (l : List α) (a : α), l.getLast? = some a →
      setLast f l = l.dropLast ++ [f a]
  | [], a, h => by simp at h
  | [b], a, h => by
      simp only [List.getLast?_singleton, Option.some.injEq] at h
      subst h
      rfl
  | b :: c :: l, a, h => by
      have hl : (c :: l).getLast? = some a := by
        simpa [List.getLast?_cons_cons] using h
      have ih := setLast_eq_append f (c :: l) a hl
      simp only [setLast, ih, List.dropLast_cons₂, List.cons_append]

theorem length_setLast {α : Type} (f : α → α) :
    ∀ l : List α, (setLast f l).length = l.length
  | [] => rfl
  | [_] => rfl
  | a :: b :: l => by
      simp only [setLast, List.length_cons, length_setLast f (b :: l)]

theorem getLast?_setLast {α : Type} (f : α → α) (l : List α) :
    (setLast f l).getLast? = l.getLast?.map f := by
  cases hl : l.getLast? with
  | none =>
      rw [List.getLast?_eq_none_iff] at hl
      subst hl
      rfl
  | some a =>
      rw [setLast_eq_append f l a hl, List.getLast?_concat]
      rfl

theorem mem_setLast {α : Type} (f : α → α) (l : List α) (m : α)
    (hm : m ∈ setLast f l) :
    m ∈ l.dropLast ∨ ∃ a, l.getLast? = some a ∧ m = f a := by
  cases hl : l.getLast? with
  | none =>
      rw [List.getLast?_eq_none_iff] at hl
      subst hl
      simp [setLast_nil] at hm
  | some a =>
      rw [setLast_eq_append f l a hl, List.mem_append] at hm
      rcases hm with h | h
      · exact Or.inl h
      · exact Or.inr ⟨a, rfl, by simpa using h⟩

theorem getElem?_setLast {α : Type} (f : α → α) (l : List α) (i : ℕ)
    (hi : i + 1 < l.length) : (setLast f l)[i]? = l[i]? := by
  have hne : l ≠ [] := by
    intro h; subst h; simp at hi
  obtain ⟨a, ha⟩ := Option.ne_none_iff_exists'.mp
    (fun h => hne (List.getLast?_eq_none_iff.mp h))
  rw [setLast_eq_append f l a ha]
  have hd : i < l.dropLast.length := by
    rw [List.length_dropLast]
    omega
  rw [List.getElem?_append_left hd]
  have := List.dropLast_append_getLast? a ha
  conv_rhs => rw [← this]
  rw [List.getElem?_append_left hd]

/-! ### Branch-selection equations for the examined-frame dispatch -/

theorem scanStep_skip (cat : Catalog) (s : ScanState) (f : Frame)
    (h : f.sec < s.next_sec) : scanStep cat s f = s := by
  simp [scanStep, h]

theorem scanStep_examine (cat : Catalog) (s : ScanState) (f : Frame)
    (h : s.next_sec ≤ f.sec) : scanStep cat s f = examineFrame cat s f := by
  simp [scanStep, not_lt.mpr h]

theorem examineFrame_roundStart (cat : Catalog) (s : ScanState) (f : Frame)
    (h : roundStartCond s f) :
    examineFrame cat s f = roundStartBranch cat s f := by
  simp [examineFrame, h]

theorem examineFrame_vsBurst (cat : Catalog) (s : ScanState) (f : Frame)
    (h1 : ¬ roundStartCond s f) (h2 : vsBurstCond cat f) :
    examineFrame cat s f = vsBurstBranch s f := by
  simp [examineFrame, h1, h2]

theorem examineFrame_potentialMatch (cat : Catalog) (s : ScanState) (f : Frame)
    (h1 : ¬ roundStartCond s f) (h2 : ¬ vsBurstCond cat f)
    (h3 : s.vs_clip_frame_imgs ≠ []) :
    examineFrame cat s f = potentialMatchBranch cat s f := by
  simp [examineFrame, h1, h2, h3]

theorem examineFrame_idle (cat : Catalog) (s : ScanState) (f : Frame)
    (h1 : ¬ roundStartCond s f) (h2 : ¬ vsBurstCond cat f)
    (h3 : s.vs_clip_frame_imgs = []) :
    examineFrame cat s f = idleBranch s f := by
  simp [examineFrame, h1, h2, h3]

theorem roundStartBranch_set (cat : Catalog) (s : ScanState) (f : Frame)
    (h : clauseImgHashDiff cat f < CLAUSE_IMAGE_HASH_THRESHOLD) :
    roundStartBranch cat s f =
      { s with
        potential_matches :=
          setLast (fun m =>
            { m with
              round_start_sec := some f.sec
              clause_hash_diff := some (clauseImgHashDiff cat f) }) s.potential_matches
        next_sec := max (s.last_vs_sec + ROUND_START_MAX_OFFSET_SECS) (f.sec + SKIP_SECS) } := by
  simp [roundStartBranch, h]

theorem roundStartBranch_noSet (cat : Catalog) (s : ScanState) (f : Frame)
    (h : ¬ clauseImgHashDiff cat f < CLAUSE_IMAGE_HASH_THRESHOLD) :
    roundStartBranch cat s f = { s with next_sec := f.sec + SEEK_SECS } := by
  simp [roundStartBranch, h]

/-! ### Cursor monotonicity -/

/-- Every branch of the examined-frame dispatch assigns `next_sec` a value
at least the examined frame's timestamp. -/
theorem sec_le_examineFrame_next_sec (cat : Catalog) (s : ScanState) (f : Frame) :
    f.sec ≤ (examineFrame cat s f).next_sec := by
  by_cases h1 : roundStartCond s f
  · rw [examineFrame_roundStart cat s f h1]
    by_cases h2 : clauseImgHashDiff cat f < CLAUSE_IMAGE_HASH_THRESHOLD
    · rw [roundStartBranch_set cat s f h2]
      have : f.sec ≤ f.sec + SKIP_SECS := by
        unfold SKIP_SECS; linarith
      exact this.trans (le_max_right _ _)
    · rw [roundStartBranch_noSet cat s f h2]
      unfold SEEK_SECS; simp
  · by_cases h2 : vsBurstCond cat f
    · rw [examineFrame_vsBurst cat s f h1 h2]
      unfold vsBurstBranch SEEK_SECS; simp
    · by_cases h3 : s.vs_clip_frame_imgs = []
      · rw [examineFrame_idle cat s f h1 h2 h3]
        unfold idleBranch SEEK_SECS; simp
      · rw [examineFrame_potentialMatch cat s f h1 h2 h3]
        unfold potentialMatchBranch SEEK_SECS; simp

/-- One loop iteration never moves `next_sec` backwards. -/
theorem next_sec_le_scanStep (cat : Catalog) (s : ScanState) (f : Frame) :
    s.next_sec ≤ (scanStep cat s f).next_sec := by
  by_cases h : f.sec < s.next_sec
  · rw [scanStep_skip cat s f h]
  · have hle : s.next_sec ≤ f.sec := not_lt.mp h
    rw [scanStep_examine cat s f hle]
    exact hle.trans (sec_le_examineFrame_next_sec cat s f)

/-- Over a whole run, `next_sec` is non-decreasing. -/
theorem next_sec_le_scanFrames (cat : Catalog) (s : ScanState) :
    ∀ frames : List Frame, s.next_sec ≤ (scanFrames cat s frames).next_sec := by
  intro frames
  induction frames generalizing s with
  | nil => exact le_refl _
  | cons f fs ih =>
      exact (next_sec_le_scanStep cat s f).trans (ih (scanStep cat s f))

/-! ### The sorted hash-distance lists of the classification step -/

theorem charHashDiffs_perm_map (img : Img) (box : Box)
    (char_hashes : List (String × ImageHash)) :
    (charHashDiffs img box char_hashes).Perm
      (char_hashes.map (fun kh => (hashDiff (img.dhashCrop box) kh.2, kh.1))) :=
  List.perm_insertionSort _ _

theorem charHashDiffs_sorted (img : Img) (box : Box)
    (char_hashes : List (String × ImageHash)) :
    List.Sorted tupleLE (charHashDiffs img box char_hashes) :=
  List.sorted_insertionSort _ _

theorem charHashDiffs_length (img : Img) (box : Box)
    (char_hashes : List (String × ImageHash)) :
    (charHashDiffs img box char_hashes).length = char_hashes.length := by
  unfold charHashDiffs
  rw [List.length_insertionSort, List.length_map]

theorem charHashDiffs_ne_nil (img : Img) (box : Box)
    {char_hashes : List (String × ImageHash)} (h : char_hashes ≠ []) :
    charHashDiffs img box char_hashes ≠ [] := by
  intro hc
  apply h
  have := charHashDiffs_length img box char_hashes
  rw [hc] at this
  exact List.length_eq_zero.mp this.symm

/-- The head of the sorted list is `tupleLE`-below every element of it. -/
theorem charHashDiffs_head_le (img : Img) (box : Box)
    (char_hashes : List (String × ImageHash)) (x : ℕ × String)
    (hx : x ∈ charHashDiffs img box char_hashes) :
    tupleLE ((charHashDiffs img box char_hashes).headD default) x := by
  rcases hl : charHashDiffs img box char_hashes with _ | ⟨h₀, t⟩
  · rw [hl] at hx; simp at hx
  · rw [hl] at hx
    have hs := charHashDiffs_sorted img box char_hashes
    rw [hl] at hs
    rcases List.mem_cons.mp hx with rfl | hmem
    · exact tupleLE_refl _
    · exact List.rel_of_sorted_cons hs x hmem

/-- The head of the sorted list is itself one of the computed
(distance, key) pairs. -/
theorem charHashDiffs_head_mem (img : Img) (box : Box)
    {char_hashes : List (String × ImageHash)} (h : char_hashes ≠ []) :
    ∃ kh ∈ char_hashes,
      (charHashDiffs img box char_hashes).headD default =
        (hashDiff (img.dhashCrop box) kh.2, kh.1) := by
  rcases hl : charHashDiffs img box char_hashes with _ | ⟨h₀, t⟩
  · exact absurd hl (charHashDiffs_ne_nil img box h)
  · have hmem : h₀ ∈ charHashDiffs img box char_hashes := by
      rw [hl]; exact List.mem_cons_self _ _
    have hmap := (charHashDiffs_perm_map img box char_hashes).mem_iff.mp hmem
    obtain ⟨kh, hkh, heq⟩ := List.mem_map.mp hmap
    exact ⟨kh, hkh, by simpa using heq.symm⟩

/-- Every computed (distance, key) pair is `tupleLE`-above the head. -/
theorem charHashDiffs_head_min (img : Img) (box : Box)
    {char_hashes : List (String × ImageHash)} (kh : String × ImageHash)
    (hkh : kh ∈ char_hashes) :
    tupleLE ((charHashDiffs img box char_hashes).headD default)
      (hashDiff (img.dhashCrop box) kh.2, kh.1) := by
  apply charHashDiffs_head_le
  apply (charHashDiffs_perm_map img box char_hashes).mem_iff.mpr
  exact List.mem_map.mpr ⟨kh, hkh, rfl⟩

/-- The sorted distance list is invariant under re-enumeration of the
roster: rosters that are permutations of one another sort to the same
list. -/
theorem charHashDiffs_perm_invariant (img : Img) (box : Box)
    {l l' : List (String × ImageHash)} (h : l.Perm l') :
    charHashDiffs img box l = charHashDiffs img box l' := by
  refine List.eq_of_perm_of_sorted ?_ (charHashDiffs_sorted img box l)
    (charHashDiffs_sorted img box l')
  exact (charHashDiffs_perm_map img box l).trans
    ((h.map _).trans (charHashDiffs_perm_map img box l').symm)

/-! ### The loop invariant -/

theorem SEEK_SECS_nonneg : (0 : ℚ) ≤ SEEK_SECS := by
  unfold SEEK_SECS; norm_num

theorem SKIP_SECS_nonneg : (0 : ℚ) ≤ SKIP_SECS := by
  unfold SKIP_SECS; norm_num

theorem window_nonneg : (0 : ℚ) ≤ ROUND_START_MAX_OFFSET_SECS := by
  unfold ROUND_START_MAX_OFFSET_SECS; norm_num

/-- State invariant of the scan loop:
1. the cursor is never behind the last recorded VS timestamp;
2. a filled `round_start_sec` is at least the record's own `vs_sec`;
3. the newest match's `vs_sec` is exactly `last_vs_sec`;
4. `round_start_sec` and `clause_hash_diff` are filled together;
5. once the newest match has its round start, the cursor has jumped past
   the whole round-start window. -/
def ScanInv (s : ScanState) : Prop :=
  s.last_vs_sec ≤ s.next_sec ∧
  (∀ m ∈ s.potential_matches, ∀ rs, m.round_start_sec = some rs → m.vs_sec ≤ rs) ∧
  (∀ m, s.potential_matches.getLast? = some m → m.vs_sec = s.last_vs_sec) ∧
  (∀ m ∈ s.potential_matches, m.round_start_sec.isSome = m.clause_hash_diff.isSome) ∧
  (∀ m, s.potential_matches.getLast? = some m → m.round_start_sec.isSome = true →
    s.last_vs_sec + ROUND_START_MAX_OFFSET_SECS ≤ s.next_sec)

theorem scanInv_init : ScanInv initState := by
  refine ⟨le_refl _, ?_, ?_, ?_, ?_⟩ <;> simp [initState]

theorem scanInv_examine (cat : Catalog) (s : ScanState) (f : Frame)
    (hsec : s.next_sec ≤ f.sec) (hInv : ScanInv s) :
    ScanInv (examineFrame cat s f) := by
  obtain ⟨h1, h2, h3, h4, h5⟩ := hInv
  have hlf : s.last_vs_sec ≤ f.sec := h1.trans hsec
  by_cases hrs : roundStartCond s f
  · rw [examineFrame_roundStart cat s f hrs]
    by_cases hcl : clauseImgHashDiff cat f < CLAUSE_IMAGE_HASH_THRESHOLD
    · rw [roundStartBranch_set cat s f hcl]
      refine ⟨?_, ?_, ?_, ?_, ?_⟩
      · dsimp only
        have : s.last_vs_sec ≤ s.last_vs_sec + ROUND_START_MAX_OFFSET_SECS := by
          have := window_nonneg; linarith
        exact this.trans (le_max_left _ _)
      · dsimp only
        intro m hm rs hrs'
        rcases mem_setLast _ _ m hm with hdrop | ⟨a, ha, rfl⟩
        · exact h2 m ((List.dropLast_sublist _).subset hdrop) rs hrs'
        · simp only [Option.some.injEq] at hrs'
          have hva : a.vs_sec = s.last_vs_sec := h3 a ha
          simp only [← hrs']
          calc a.vs_sec = s.last_vs_sec := hva
            _ ≤ f.sec := hlf
      · dsimp only
        intro m hm
        rw [getLast?_setLast] at hm
        obtain ⟨a, ha, rfl⟩ := Option.map_eq_some'.mp hm
        exact h3 a ha
      · dsimp only
        intro m hm
        rcases mem_setLast _ _ m hm with hdrop | ⟨a, _, rfl⟩
        · exact h4 m ((List.dropLast_sublist _).subset hdrop)
        · rfl
      · dsimp only
        intro m _ _
        exact le_max_left _ _
    · rw [roundStartBranch_noSet cat s f hcl]
      refine ⟨?_, h2, h3, h4, ?_⟩
      · dsimp only
        have := SEEK_SECS_nonneg; linarith
      · dsimp only
        intro m hm hsome
        have := h5 m hm hsome
        have := SEEK_SECS_nonneg; linarith
  · by_cases hvs : vsBurstCond cat f
    · rw [examineFrame_vsBurst cat s f hrs hvs]
      refine ⟨?_, h2, h3, h4, ?_⟩
      · dsimp only [vsBurstBranch]
        have := SEEK_SECS_nonneg; linarith
      · dsimp only [vsBurstBranch]
        intro m hm hsome
        have := h5 m hm hsome
        have := SEEK_SECS_nonneg; linarith
    · by_cases hbuf : s.vs_clip_frame_imgs = []
      · rw [examineFrame_idle cat s f hrs hvs hbuf]
        refine ⟨?_, h2, h3, h4, ?_⟩
        · dsimp only [idleBranch]
          have := SEEK_SECS_nonneg; linarith
        · dsimp only [idleBranch]
          intro m hm hsome
          have := h5 m hm hsome
          have := SEEK_SECS_nonneg; linarith
      · rw [examineFrame_potentialMatch cat s f hrs hvs hbuf]
        refine ⟨?_, ?_, ?_, ?_, ?_⟩
        · dsimp only [potentialMatchBranch]
          have := SEEK_SECS_nonneg; linarith
        · dsimp only [potentialMatchBranch]
          intro m hm rs hrs'
          rcases List.mem_append.mp hm with hold | hnew
          · exact h2 m hold rs hrs'
          · simp only [List.mem_singleton] at hnew
            subst hnew
            simp at hrs'
        · dsimp only [potentialMatchBranch]
          intro m hm
          rw [List.getLast?_concat] at hm
          cases hm
          rfl
        · dsimp only [potentialMatchBranch]
          intro m hm
          rcases List.mem_append.mp hm with hold | hnew
          · exact h4 m hold
          · simp only [List.mem_singleton] at hnew
            subst hnew
            rfl
        · dsimp only [potentialMatchBranch]
          intro m hm hsome
          rw [List.getLast?_concat] at hm
          cases hm
          simp at hsome

theorem scanInv_step (cat : Catalog) (s : ScanState) (f : Frame)
    (hInv : ScanInv s) : ScanInv (scanStep cat s f) := by
  by_cases h : f.sec < s.next_sec
  · rw [scanStep_skip cat s f h]
    exact hInv
  · rw [scanStep_examine cat s f (not_lt.mp h)]
    exact scanInv_examine cat s f (not_lt.mp h) hInv

theorem scanInv_scanFrames (cat : Catalog) (s : ScanState)
    (frames : List Frame) (hInv : ScanInv s) :
    ScanInv (scanFrames cat s frames) := by
  induction frames generalizing s with
  | nil => exact hInv
  | cons f fs ih => exact ih (scanStep cat s f) (scanInv_step cat s f hInv)

theorem scanInv_scan (cat : Catalog) (frames : List Frame) :
    ScanInv (scan cat frames) :=
  scanInv_scanFrames cat initState frames scanInv_init

/-! ### Preservation of filled round-start fields -/

theorem scanStep_preserves_filled (cat : Catalog) (s : ScanState) (f : Frame)
    (hInv : ScanInv s) (i : ℕ) (m : PotentialMatch) (rs : ℚ)
    (hi : s.potential_matches[i]? = some m)
    (hrs : m.round_start_sec = some rs) :
    ∃ m', (scanStep cat s f).potential_matches[i]? = some m' ∧
      m'.round_start_sec = some rs ∧
      m'.clause_hash_diff = m.clause_hash_diff := by
  have hilen : i < s.potential_matches.length := by
    rcases List.getElem?_eq_some.mp hi with ⟨h, _⟩
    exact h
  by_cases hsk : f.sec < s.next_sec
  · rw [scanStep_skip cat s f hsk]
    exact ⟨m, hi, hrs, rfl⟩
  have hsec : s.next_sec ≤ f.sec := not_lt.mp hsk
  rw [scanStep_examine cat s f hsec]
  by_cases hrsC : roundStartCond s f
  · rw [examineFrame_roundStart cat s f hrsC]
    by_cases hcl : clauseImgHashDiff cat f < CLAUSE_IMAGE_HASH_THRESHOLD
    · rw [roundStartBranch_set cat s f hcl]
      dsimp only
      by_cases hmid : i + 1 < s.potential_matches.length
      · rw [getElem?_setLast _ _ i hmid]
        exact ⟨m, hi, hrs, rfl⟩
      · exfalso
        have hieq : i = s.potential_matches.length - 1 := by omega
        have hglast : s.potential_matches.getLast? = some m := by
          rw [List.getLast?_eq_getElem?, ← hieq]
          exact hi
        have h5 := hInv.2.2.2.2 m hglast (by rw [hrs]; rfl)
        obtain ⟨hwin, _⟩ := hrsC
        linarith
    · rw [roundStartBranch_noSet cat s f hcl]
      exact ⟨m, hi, hrs, rfl⟩
  · by_cases hvs : vsBurstCond cat f
    · rw [examineFrame_vsBurst cat s f hrsC hvs]
      exact ⟨m, hi, hrs, rfl⟩
    · by_cases hbuf : s.vs_clip_frame_imgs = []
      · rw [examineFrame_idle cat s f hrsC hvs hbuf]
        exact ⟨m, hi, hrs, rfl⟩
      · rw [examineFrame_potentialMatch cat s f hrsC hvs hbuf]
        dsimp only [potentialMatchBranch]
        rw [List.getElem?_append_left hilen]
        exact ⟨m, hi, hrs, rfl⟩

theorem scanFrames_preserves_filled (cat : Catalog) (frames : List Frame) :
    ∀ (s : ScanState), ScanInv s →
      ∀ (i : ℕ) (m : PotentialMatch) (rs : ℚ),
        s.potential_matches[i]? = some m → m.round_start_sec = some rs →
        ∃ m', (scanFrames cat s frames).potential_matches[i]? = some m' ∧
          m'.round_start_sec = some rs ∧
          m'.clause_hash_diff = m.clause_hash_diff := by
  induction frames with
  | nil =>
      intro s _ i m rs hi hrs
      exact ⟨m, hi, hrs, rfl⟩
  | cons f fs ih =>
      intro s hInv i m rs hi hrs
      obtain ⟨m₁, hi₁, hrs₁, hcl₁⟩ :=
        scanStep_preserves_filled cat s f hInv i m rs hi hrs
      obtain ⟨m', hi', hrs', hcl'⟩ :=
        ih (scanStep cat s f) (scanInv_step cat s f hInv) i m₁ rs hi₁ hrs₁
      exact ⟨m', hi', hrs', hcl'.trans hcl₁⟩

/-! ### Catalog congruence: roster enumeration order is irrelevant -/

theorem examineFrame_congr (cat cat' : Catalog)
    (hvs : cat.VS_IMAGE_HASH = cat'.VS_IMAGE_HASH)
    (hcl : cat.CLAUSE_IMAGE_HASH = cat'.CLAUSE_IMAGE_HASH)
    (hL : cat.CHAR_LEFT_HASHES.Perm cat'.CHAR_LEFT_HASHES)
    (hR : cat.CHAR_RIGHT_HASHES.Perm cat'.CHAR_RIGHT_HASHES)
    (s : ScanState) (f : Frame) :
    examineFrame cat s f = examineFrame cat' s f := by
  have hcld : clauseImgHashDiff cat f = clauseImgHashDiff cat' f := by
    unfold clauseImgHashDiff; rw [hcl]
  have hvsd : vsImgHashDiff cat f = vsImgHashDiff cat' f := by
    unfold vsImgHashDiff; rw [hvs]
  have hvsb : vsBurstCond cat f ↔ vsBurstCond cat' f := by
    unfold vsBurstCond; rw [hvsd]
  unfold examineFrame
  by_cases h1 : roundStartCond s f
  · rw [if_pos h1, if_pos h1]
    unfold roundStartBranch
    rw [hcld]
  · rw [if_neg h1, if_neg h1]
    by_cases h2 : vsBurstCond cat f
    · rw [if_pos h2, if_pos (hvsb.mp h2)]
    · rw [if_neg h2, if_neg (fun hh => h2 (hvsb.mpr hh))]
      by_cases h3 : s.vs_clip_frame_imgs ≠ []
      · rw [if_pos h3, if_pos h3]
        unfold potentialMatchBranch
        simp only [charHashDiffs_perm_invariant _ _ hL,
          charHashDiffs_perm_invariant _ _ hR]
      · rw [if_neg h3, if_neg h3]

theorem scanFrames_congr (cat cat' : Catalog)
    (hvs : cat.VS_IMAGE_HASH = cat'.VS_IMAGE_HASH)
    (hcl : cat.CLAUSE_IMAGE_HASH = cat'.CLAUSE_IMAGE_HASH)
    (hL : cat.CHAR_LEFT_HASHES.Perm cat'.CHAR_LEFT_HASHES)
    (hR : cat.CHAR_RIGHT_HASHES.Perm cat'.CHAR_RIGHT_HASHES)
    (frames : List Frame) :
    ∀ s : ScanState, scanFrames cat s frames = scanFrames cat' s frames := by
  induction frames with
  | nil => intro s; rfl
  | cons f fs ih =>
      intro s
      show scanFrames cat (scanStep cat s f) fs = scanFrames cat' (scanStep cat' s f) fs
      have hstep : scanStep cat s f = scanStep cat' s f := by
        unfold scanStep
        by_cases h : f.sec < s.next_sec
        · rw [if_pos h, if_pos h]
        · rw [if_neg h, if_neg h]
          exact examineFrame_congr cat cat' hvs hcl hL hR s f
      rw [hstep]
      exact ih (scanStep cat' s f)

/-! ### A further `setLast` fact used by the window-boundary claim -/

theorem dropLast_setLast {α : Type} (f : α → α) (l : List α) :
    (setLast f l).dropLast = l.dropLast := by
  cases hl : l.getLast? with
  | none =>
      rw [List.getLast?_eq_none_iff] at hl
      subst hl
      rfl
  | some a =>
      rw [setLast_eq_append f l a hl, List.dropLast_concat]

/-! ### Concrete test inputs (the spec's synthetic scenarios) -/

/-- The all-zeros 32-bit fingerprint. -/
def zeros32 : ImageHash := List.replicate 32 false

/-- The all-ones 32-bit fingerprint (distance 32 from `zeros32`). -/
def ones32 : ImageHash := List.replicate 32 true

/-- An image specified by the fingerprints of its four scanned crops. -/
def mkImg (vsH clH lH rH : ImageHash) : Img :=
  ⟨fun box =>
    if box = VS_IMAGE_BOX then vsH
    else if box = CLAUSE_IMAGE_BOX then clH
    else if box = CHAR_LEFT_IMAGE_BOX then lH
    else rH⟩

/-- Test catalog: all-zeros VS and clause references and two-entry rosters. -/
def testCat : Catalog :=
  { VS_IMAGE_HASH := zeros32
    CLAUSE_IMAGE_HASH := zeros32
    CHAR_LEFT_HASHES := [("alpha", zeros32), ("beta", ones32)]
    CHAR_RIGHT_HASHES := [("gamma", zeros32), ("delta", ones32)] }

/-- Catalog `testCat` with both rosters enumerated in the opposite order. -/
def testCatRev : Catalog :=
  { VS_IMAGE_HASH := zeros32
    CLAUSE_IMAGE_HASH := zeros32
    CHAR_LEFT_HASHES := [("beta", ones32), ("alpha", zeros32)]
    CHAR_RIGHT_HASHES := [("delta", ones32), ("gamma", zeros32)] }

/-- First and third frames of the scenario-B VS burst: VS crop matches the
reference exactly; character crops match the `beta` / `delta` icons. -/
def burstImgSide : Img := mkImg zeros32 ones32 ones32 ones32

/-- Middle frame of the scenario-B VS burst: VS crop matches the reference
exactly; character crops match the `alpha` / `gamma` icons. -/
def burstImgMid : Img := mkImg zeros32 ones32 zeros32 zeros32

/-- A frame matching nothing: every crop is far from every reference. -/
def plainImg : Img := mkImg ones32 ones32 ones32 ones32

/-- A round-start frame: clause crop matches the reference exactly,
VS crop matches nothing. -/
def clauseFrameImg : Img := mkImg ones32 zeros32 ones32 ones32

/-- Scenario B: a VS burst of three frames at t = 5.0, 5.25, 5.5 (all at
hash distance 0 to the VS reference), followed by non-marker frames. -/
def framesB : List Frame :=
  [⟨5, burstImgSide⟩, ⟨21/4, burstImgMid⟩, ⟨11/2, burstImgSide⟩,
   ⟨23/4, plainImg⟩, ⟨6, plainImg⟩]

/-- The single match the scan emits on scenario B: its representative
frame is the middle buffered frame (`burstImgMid`, captured at t = 5.25),
but its `vs_sec` is 5.75, the timestamp of the burst-closing frame. -/
def matchB : PotentialMatch :=
  { vs_sec := 23/4
    vs_clip_frame_img := burstImgMid
    left_char_key := "alpha"
    right_char_key := "gamma"
    left_hash_diff := 0
    right_hash_diff := 0
    round_start_sec := none
    clause_hash_diff := none }

/-- Scenario C: scenario B plus a round-start-marker frame at t = 12. -/
def framesC : List Frame := framesB ++ [⟨12, clauseFrameImg⟩]

/-- The single match the scan emits on scenario C. -/
def matchC : PotentialMatch :=
  { matchB with round_start_sec := some 12, clause_hash_diff := some 0 }

theorem scanB_matches : (scan testCat framesB).potential_matches = [matchB] := by
  with_unfolding_all rfl

theorem scanC_matches : (scan testCat framesC).potential_matches = [matchC] := by
  with_unfolding_all rfl

/-- The scan state after scenario B: one open match, `last_vs_sec = 5.75`,
`next_sec = 6.25`. -/
def stateB : ScanState := scan testCat framesB

/-! ## The claims -/

/-- C1, counterexample.  On Scenario B (a VS burst at t = 5.0, 5.25,
5.5 at hash distance 0 to the VS reference, then non-marker frames) the
emitted match's `vs_sec` is *not* 5.25, the middle buffered frame's
timestamp: the scan records the burst-closing frame's timestamp instead. -/
theorem claim1_scenarioB_counterexample :
    (scan testCat framesB).potential_matches.map PotentialMatch.vs_sec ≠ [21/4] := by
  with_unfolding_all decide

/-- C1, amended.  On Scenario B the scan emits exactly one match; its
representative frame is the temporally middle buffered frame (the image
captured at t = 5.25), its `vs_sec` is 5.75 — the timestamp of the first
examined frame after the burst (the frame that closes the burst), not the
middle buffered frame's 5.25 — and its `round_start_sec` is unset. -/
theorem claim1_scenarioB_amended :
    (scan testCat framesB).potential_matches = [matchB] ∧
    matchB.vs_clip_frame_img = burstImgMid ∧
    matchB.vs_sec = 23/4 ∧
    matchB.round_start_sec = none :=
  ⟨scanB_matches, rfl, rfl, rfl⟩

/-- C2.  Frames with timestamp below `next_sec` are skipped untouched
and the others examined; on an examined frame exactly one of the four
branches fires — round-start check (needs an existing match and a frame
within the round-start window), else VS-burst collection (VS hash distance
below threshold), else burst closure (pending VS frames), else idle — and
the scan performs exactly that branch's body. -/
theorem claim2_branch_dispatch (cat : Catalog) (s : ScanState) (f : Frame) :
    (f.sec < s.next_sec → scanStep cat s f = s) ∧
    (s.next_sec ≤ f.sec → scanStep cat s f = examineFrame cat s f) ∧
    (roundStartCond s f ∨
      (¬roundStartCond s f ∧ vsBurstCond cat f) ∨
      (¬roundStartCond s f ∧ ¬vsBurstCond cat f ∧ s.vs_clip_frame_imgs ≠ []) ∨
      (¬roundStartCond s f ∧ ¬vsBurstCond cat f ∧ s.vs_clip_frame_imgs = [])) ∧
    (roundStartCond s f → examineFrame cat s f = roundStartBranch cat s f) ∧
    (¬roundStartCond s f → vsBurstCond cat f →
      examineFrame cat s f = vsBurstBranch s f) ∧
    (¬roundStartCond s f → ¬vsBurstCond cat f → s.vs_clip_frame_imgs ≠ [] →
      examineFrame cat s f = potentialMatchBranch cat s f) ∧
    (¬roundStartCond s f → ¬vsBurstCond cat f → s.vs_clip_frame_imgs = [] →
      examineFrame cat s f = idleBranch s f) := by
  refine ⟨scanStep_skip cat s f, scanStep_examine cat s f, ?_,
    examineFrame_roundStart cat s f, examineFrame_vsBurst cat s f,
    examineFrame_potentialMatch cat s f, examineFrame_idle cat s f⟩
  by_cases h1 : roundStartCond s f
  · exact Or.inl h1
  · by_cases h2 : vsBurstCond cat f
    · exact Or.inr (Or.inl ⟨h1, h2⟩)
    · by_cases h3 : s.vs_clip_frame_imgs = []
      · exact Or.inr (Or.inr (Or.inr ⟨h1, h2, h3⟩))
      · exact Or.inr (Or.inr (Or.inl ⟨h1, h2, h3⟩))

/-- Witness for C2: the first scenario-B frame is examined (not skipped)
and fires the VS-burst branch. -/
theorem claim2_branch_dispatch_witness :
    scanStep testCat initState ⟨5, burstImgSide⟩ =
      examineFrame testCat initState ⟨5, burstImgSide⟩ ∧
    examineFrame testCat initState ⟨5, burstImgSide⟩ =
      vsBurstBranch initState ⟨5, burstImgSide⟩ :=
  ⟨(claim2_branch_dispatch testCat initState ⟨5, burstImgSide⟩).2.1
      (by with_unfolding_all decide),
   (claim2_branch_dispatch testCat initState ⟨5, burstImgSide⟩).2.2.2.2.1
      (by with_unfolding_all decide) (by with_unfolding_all decide)⟩

/-- C3.  Given at least one open match: a clause-matching examined
frame strictly inside the round-start window (at
`last_vs_sec + ROUND_START_MAX_OFFSET_SECS − ε`, `ε > 0`) fills
`round_start_sec` on the most recently appended match and leaves all
earlier matches untouched; an examined frame at or beyond the window end
(`+ ε`, `ε ≥ 0` — the window test is strict) leaves every existing match
unmodified. -/
theorem claim3_round_start_window (cat : Catalog) (s : ScanState) (f : Frame)
    (ε : ℚ) :
    (0 < ε → f.sec = s.last_vs_sec + ROUND_START_MAX_OFFSET_SECS - ε →
      s.potential_matches ≠ [] →
      clauseImgHashDiff cat f < CLAUSE_IMAGE_HASH_THRESHOLD →
      (examineFrame cat s f).potential_matches =
        setLast (fun m =>
          { m with
            round_start_sec := some f.sec
            clause_hash_diff := some (clauseImgHashDiff cat f) })
          s.potential_matches ∧
      (examineFrame cat s f).potential_matches.getLast? =
        s.potential_matches.getLast?.map (fun m =>
          { m with
            round_start_sec := some f.sec
            clause_hash_diff := some (clauseImgHashDiff cat f) }) ∧
      (examineFrame cat s f).potential_matches.dropLast =
        s.potential_matches.dropLast) ∧
    (0 ≤ ε → f.sec = s.last_vs_sec + ROUND_START_MAX_OFFSET_SECS + ε →
      (examineFrame cat s f).potential_matches.take s.potential_matches.length =
        s.potential_matches) := by
  constructor
  · intro hε hsec hne hclause
    have hcond : roundStartCond s f := by
      refine ⟨?_, hne⟩
      rw [hsec]
      linarith
    rw [examineFrame_roundStart cat s f hcond, roundStartBranch_set cat s f hclause]
    dsimp only
    exact ⟨rfl, by rw [getLast?_setLast], dropLast_setLast _ _⟩
  · intro hε hsec
    have hcond : ¬ roundStartCond s f := by
      rintro ⟨hwin, -⟩
      rw [hsec] at hwin
      linarith
    by_cases h2 : vsBurstCond cat f
    · rw [examineFrame_vsBurst cat s f hcond h2]
      exact List.take_length _
    · by_cases h3 : s.vs_clip_frame_imgs = []
      · rw [examineFrame_idle cat s f hcond h2 h3]
        exact List.take_length _
      · rw [examineFrame_potentialMatch cat s f hcond h2 h3]
        dsimp only [potentialMatchBranch]
        exact List.take_left _ _

/-- Witness for C3: after scenario B (`last_vs_sec = 5.75`), a clause
frame at `5.75 + 20 − 0.25 = 25.5` fills the open match's round start,
while one at the window boundary `5.75 + 20 = 25.75` leaves it open. -/
theorem claim3_round_start_window_witness :
    (examineFrame testCat stateB ⟨51/2, clauseFrameImg⟩).potential_matches =
      [{ matchB with round_start_sec := some (51/2 : ℚ), clause_hash_diff := some 0 }] ∧
    (examineFrame testCat stateB ⟨103/4, clauseFrameImg⟩).potential_matches.take 1 =
      [matchB] := by
  have h1 := (claim3_round_start_window testCat stateB ⟨51/2, clauseFrameImg⟩ (1/4)).1
    (by norm_num) (by with_unfolding_all decide) (by with_unfolding_all decide)
    (by with_unfolding_all decide)
  have h2 := (claim3_round_start_window testCat stateB ⟨103/4, clauseFrameImg⟩ 0).2
    le_rfl (by with_unfolding_all decide)
  constructor
  · rw [h1.1]
    with_unfolding_all rfl
  · with_unfolding_all exact h2

/-- C4.  For every non-empty roster and every cropped region, the
classification step returns a (distance, key) pair that belongs to the
roster's computed distances and whose distance is the minimum over all
roster entries; no threshold is applied anywhere, and the burst-closure
branch appends a match record unconditionally. -/
theorem claim4_classifier_min (img : Img) (box : Box)
    (char_hashes : List (String × ImageHash)) (hne : char_hashes ≠ [])
    (cat : Catalog) (s : ScanState) (f : Frame) :
    (∃ kh ∈ char_hashes,
      (charHashDiffs img box char_hashes).headD default =
        (hashDiff (img.dhashCrop box) kh.2, kh.1)) ∧
    (∀ kh ∈ char_hashes,
      ((charHashDiffs img box char_hashes).headD default).1 ≤
        hashDiff (img.dhashCrop box) kh.2) ∧
    (potentialMatchBranch cat s f).potential_matches.length =
      s.potential_matches.length + 1 := by
  refine ⟨charHashDiffs_head_mem img box hne, ?_, ?_⟩
  · intro kh hkh
    rcases charHashDiffs_head_min img box kh hkh with h | ⟨h, _⟩
    · exact le_of_lt h
    · exact le_of_eq h
  · dsimp only [potentialMatchBranch]
    rw [List.length_append]
    rfl

/-- Witness for C4: on the scenario-B middle frame and the left roster,
the returned distance (0, for `alpha`) is at most the distance to the
`beta` entry, and burst closure on any state appends one record. -/
theorem claim4_classifier_min_witness :
    ((charHashDiffs burstImgMid CHAR_LEFT_IMAGE_BOX testCat.CHAR_LEFT_HASHES).headD
        default).1 ≤
      hashDiff (burstImgMid.dhashCrop CHAR_LEFT_IMAGE_BOX) ones32 ∧
    (potentialMatchBranch testCat initState ⟨0, plainImg⟩).potential_matches.length = 1 := by
  have h := claim4_classifier_min burstImgMid CHAR_LEFT_IMAGE_BOX
    testCat.CHAR_LEFT_HASHES (by with_unfolding_all decide)
    testCat initState ⟨0, plainImg⟩
  exact ⟨h.2.1 ("beta", ones32) (by with_unfolding_all decide), h.2.2⟩

/-- C5.  The cursor is monotone: every branch of the examined-frame
dispatch assigns `next_sec` a value at least the examined frame's
timestamp, one loop iteration never decreases `next_sec`, and over a whole
run `next_sec` is non-decreasing. -/
theorem claim5_next_sec_monotone (cat : Catalog) (s : ScanState) (f : Frame)
    (frames : List Frame) :
    f.sec ≤ (examineFrame cat s f).next_sec ∧
    s.next_sec ≤ (scanStep cat s f).next_sec ∧
    s.next_sec ≤ (scanFrames cat s frames).next_sec :=
  ⟨sec_le_examineFrame_next_sec cat s f, next_sec_le_scanStep cat s f,
   next_sec_le_scanFrames cat s frames⟩

/-- C6.  Every match of a completed scan has `round_start_sec` unset
or at least its own `vs_sec`; moreover at the moment a round start is
recorded it is placed on the most recently appended match, its value is
the examined frame's timestamp, and that timestamp is strictly within
`ROUND_START_MAX_OFFSET_SECS` of the most recent VS detection. -/
theorem claim6_round_start_ge_vs (cat : Catalog) (frames : List Frame)
    (s : ScanState) (f : Frame) (m : PotentialMatch) (rs : ℚ) :
    (m ∈ (scan cat frames).potential_matches → m.round_start_sec = some rs →
      m.vs_sec ≤ rs) ∧
    (roundStartCond s f →
      clauseImgHashDiff cat f < CLAUSE_IMAGE_HASH_THRESHOLD →
      (examineFrame cat s f).potential_matches.getLast? =
        s.potential_matches.getLast?.map (fun m0 =>
          { m0 with
            round_start_sec := some f.sec
            clause_hash_diff := some (clauseImgHashDiff cat f) }) ∧
      f.sec - s.last_vs_sec < ROUND_START_MAX_OFFSET_SECS) := by
  constructor
  · intro hm hrs
    exact (scanInv_scan cat frames).2.1 m hm rs hrs
  · intro hcond hclause
    refine ⟨?_, hcond.1⟩
    rw [examineFrame_roundStart cat s f hcond, roundStartBranch_set cat s f hclause]
    dsimp only
    rw [getLast?_setLast]

/-- Witness for C6: the scenario-C match has `round_start_sec = 12 ≥ vs_sec`,
and a clause frame at t = 25.5 after scenario B is inside the window. -/
theorem claim6_round_start_ge_vs_witness :
    matchC.vs_sec ≤ 12 ∧
    (Frame.mk (51/2) clauseFrameImg).sec - stateB.last_vs_sec <
      ROUND_START_MAX_OFFSET_SECS := by
  constructor
  · exact (claim6_round_start_ge_vs testCat framesC stateB ⟨51/2, clauseFrameImg⟩
      matchC 12).1 (by rw [scanC_matches]; exact List.mem_singleton_self _) rfl
  · exact ((claim6_round_start_ge_vs testCat framesC stateB ⟨51/2, clauseFrameImg⟩
      matchC 12).2 (by with_unfolding_all decide) (by with_unfolding_all decide)).2

/-- C7.  At every point of every scan — every reachable state is the
result of scanning some frame-list prefix — each match has
`round_start_sec` and `clause_hash_diff` either both set or both unset. -/
theorem claim7_filled_together (cat : Catalog) (frames : List Frame)
    (m : PotentialMatch) :
    m ∈ (scan cat frames).potential_matches →
      (m.round_start_sec.isSome = true ↔ m.clause_hash_diff.isSome = true) := by
  intro hm
  have h := (scanInv_scan cat frames).2.2.2.1 m hm
  rw [h]

/-- Witness for C7: the scenario-C match has both fields filled. -/
theorem claim7_filled_together_witness :
    matchC.round_start_sec.isSome = true ↔ matchC.clause_hash_diff.isSome = true :=
  claim7_filled_together testCat framesC matchC
    (by rw [scanC_matches]; exact List.mem_singleton_self _)

/-- C8.  The scan is deterministic and independent of roster
enumeration order: two catalogs with the same marker hashes whose rosters
are permutations of each other produce identical final states — in
particular identical match sequences, field for field — on every frame
sequence. -/
theorem claim8_deterministic (cat cat' : Catalog) (frames : List Frame)
    (hvs : cat.VS_IMAGE_HASH = cat'.VS_IMAGE_HASH)
    (hcl : cat.CLAUSE_IMAGE_HASH = cat'.CLAUSE_IMAGE_HASH)
    (hL : cat.CHAR_LEFT_HASHES.Perm cat'.CHAR_LEFT_HASHES)
    (hR : cat.CHAR_RIGHT_HASHES.Perm cat'.CHAR_RIGHT_HASHES) :
    scan cat frames = scan cat' frames := by
  unfold scan
  exact scanFrames_congr cat cat' hvs hcl hL hR frames initState

/-- Witness for C8: scanning scenario B with the rosters enumerated in
the opposite order yields the same final state. -/
theorem claim8_deterministic_witness :
    scan testCat framesB = scan testCatRev framesB :=
  claim8_deterministic testCat testCatRev framesB rfl rfl
    (List.Perm.swap _ _ _) (List.Perm.swap _ _ _)

/-- C9.  The classification tie-break: the returned key attains the
minimum distance, any other roster entry attaining that minimum has a key
lexicographically at least the returned one, and the sorted distance list
does not depend on the roster's enumeration order. -/
theorem claim9_tie_break (img : Img) (box : Box)
    (char_hashes char_hashes' : List (String × ImageHash))
    (hne : char_hashes ≠ []) :
    (∀ kh ∈ char_hashes,
      hashDiff (img.dhashCrop box) kh.2 =
        ((charHashDiffs img box char_hashes).headD default).1 →
      ((charHashDiffs img box char_hashes).headD default).2 ≤ kh.1) ∧
    (∃ kh ∈ char_hashes,
      kh.1 = ((charHashDiffs img box char_hashes).headD default).2 ∧
      hashDiff (img.dhashCrop box) kh.2 =
        ((charHashDiffs img box char_hashes).headD default).1) ∧
    (char_hashes.Perm char_hashes' →
      charHashDiffs img box char_hashes = charHashDiffs img box char_hashes') := by
  refine ⟨?_, ?_, fun h => charHashDiffs_perm_invariant img box h⟩
  · intro kh hkh heq
    rcases charHashDiffs_head_min img box kh hkh with h | ⟨_, h2⟩
    · exact absurd (heq ▸ h) (lt_irrefl _)
    · exact h2
  · obtain ⟨kh, hkh, heq⟩ := charHashDiffs_head_mem img box hne
    exact ⟨kh, hkh, by rw [heq], by rw [heq]⟩

/-- Two-entry roster with a genuine tie: both entries are at distance 0
from the scenario-B middle frame's left crop. -/
def tieRoster : List (String × ImageHash) :=
  [("bravo", zeros32), ("alfa", zeros32)]

/-- Roster `tieRoster` enumerated in the opposite order. -/
def tieRosterRev : List (String × ImageHash) :=
  [("alfa", zeros32), ("bravo", zeros32)]

/-- Witness for C9: on a tied roster the returned key is lexicographically
at most `"bravo"` (it is `"alfa"`), and reversing the roster's enumeration
order leaves the sorted distance list unchanged. -/
theorem claim9_tie_break_witness :
    ((charHashDiffs burstImgMid CHAR_LEFT_IMAGE_BOX tieRoster).headD default).2 ≤
      "bravo" ∧
    charHashDiffs burstImgMid CHAR_LEFT_IMAGE_BOX tieRoster =
      charHashDiffs burstImgMid CHAR_LEFT_IMAGE_BOX tieRosterRev := by
  have h := claim9_tie_break burstImgMid CHAR_LEFT_IMAGE_BOX tieRoster tieRosterRev
    (by with_unfolding_all decide)
  exact ⟨h.1 ("bravo", zeros32) (by with_unfolding_all decide)
      (by with_unfolding_all decide),
    h.2.2 (List.Perm.swap _ _ _)⟩

/-- C10.  Once filled, a match's `round_start_sec`/`clause_hash_diff`
are never overwritten: a round-start confirmation jumps the cursor to at
least `last_vs_sec + ROUND_START_MAX_OFFSET_SECS`; from then on, while the
newest match is filled, the round-start branch (which writes only to the
newest match) cannot fire on any examined frame; and a filled pair
survives any continuation of the run unchanged. -/
theorem claim10_filled_never_overwritten (cat : Catalog)
    (frames rest : List Frame) (s : ScanState) (f : Frame)
    (i : ℕ) (m : PotentialMatch) (rs : ℚ) :
    (roundStartCond s f →
      clauseImgHashDiff cat f < CLAUSE_IMAGE_HASH_THRESHOLD →
      s.last_vs_sec + ROUND_START_MAX_OFFSET_SECS ≤
        (examineFrame cat s f).next_sec) ∧
    ((scan cat frames).potential_matches.getLast? = some m →
      m.round_start_sec.isSome = true →
      (scan cat frames).next_sec ≤ f.sec →
      ¬ roundStartCond (scan cat frames) f) ∧
    ((scan cat frames).potential_matches[i]? = some m →
      m.round_start_sec = some rs →
      ∃ m', (scan cat (frames ++ rest)).potential_matches[i]? = some m' ∧
        m'.round_start_sec = some rs ∧
        m'.clause_hash_diff = m.clause_hash_diff) := by
  refine ⟨?_, ?_, ?_⟩
  · intro hcond hclause
    rw [examineFrame_roundStart cat s f hcond, roundStartBranch_set cat s f hclause]
    dsimp only
    exact le_max_left _ _
  · intro hlast hsome hsec hcond
    have h5 := (scanInv_scan cat frames).2.2.2.2 m hlast hsome
    obtain ⟨hwin, -⟩ := hcond
    linarith
  · intro hi hrs
    have hsplit : scan cat (frames ++ rest) = scanFrames cat (scan cat frames) rest := by
      unfold scan scanFrames
      rw [List.foldl_append]
    rw [hsplit]
    exact scanFrames_preserves_filled cat rest (scan cat frames)
      (scanInv_scan cat frames) i m rs hi hrs

/-- Witness for C10: after scenario B a confirmation at t = 25.5 jumps the
cursor to the window end; after scenario C the round-start branch cannot
fire at t = 30; and scenario C's filled match survives a further frame. -/
theorem claim10_filled_never_overwritten_witness :
    stateB.last_vs_sec + ROUND_START_MAX_OFFSET_SECS ≤
      (examineFrame testCat stateB ⟨51/2, clauseFrameImg⟩).next_sec ∧
    ¬ roundStartCond (scan testCat framesC) ⟨30, plainImg⟩ ∧
    (∃ m', (scan testCat (framesC ++ [⟨30, plainImg⟩])).potential_matches[0]? =
        some m' ∧
      m'.round_start_sec = some 12 ∧
      m'.clause_hash_diff = matchC.clause_hash_diff) := by
  refine ⟨?_, ?_, ?_⟩
  · exact (claim10_filled_never_overwritten testCat framesC [⟨30, plainImg⟩]
      stateB ⟨51/2, clauseFrameImg⟩ 0 matchC 12).1
      (by with_unfolding_all decide) (by with_unfolding_all decide)
  · exact (claim10_filled_never_overwritten testCat framesC [⟨30, plainImg⟩]
      stateB ⟨30, plainImg⟩ 0 matchC 12).2.1
      (by with_unfolding_all rfl) rfl (by with_unfolding_all decide)
  · exact (claim10_filled_never_overwritten testCat framesC [⟨30, plainImg⟩]
      stateB ⟨30, plainImg⟩ 0 matchC 12).2.2
      (by with_unfolding_all rfl) rfl

end Uni2
